import Mathlib

/-!
Verification of the natural-language specification of `totp-lite`
(`src/lib.rs`) against a shallow embedding of its code in Lean.

The crate's own code is `totp`, `totp_custom` and `to_bytes`; they are
embedded here one-to-one.  The cryptographic back-ends the crate calls
(`sha1`, `sha2` and `hmac` RustCrypto crates) are external collaborators;
they are embedded as executable pure functions over byte lists, faithful
to FIPS 180-4 (SHA-1/SHA-256/SHA-512) and RFC 2104 (HMAC), and validated
below on the RFC 6238 Appendix B known-answer vectors.

Bytes are `Nat`s below 256, machine words are `Nat`s reduced modulo
`2 ^ 32` or `2 ^ 64` where the machine arithmetic wraps.  The three Rust
panic points of `totp_custom` -- the `unwrap` on HMAC key setup, the
division `time / step`, and the remainder by `10_u64.pow(digits)` once
that wrapping u64 power reaches zero -- are modelled by `Option`: `none`
is a panic.
-/

set_option maxRecDepth 8000

namespace TotpLite

/-! ## Machine-word helpers -/

/-- Rotate a 32-bit word left by `s`. -/
def rotl32 (s x : Nat) : Nat := ((x <<< s) % 2 ^ 32) ||| (x >>> (32 - s))

/-- Rotate a 32-bit word right by `s`. -/
def rotr32 (s x : Nat) : Nat := (x >>> s) ||| ((x <<< (32 - s)) % 2 ^ 32)

/-- Bitwise complement on 32 bits. -/
def not32 (x : Nat) : Nat := 0xFFFFFFFF ^^^ x

/-- Rotate a 64-bit word right by `s`. -/
def rotr64 (s x : Nat) : Nat := (x >>> s) ||| ((x <<< (64 - s)) % 2 ^ 64)

/-- Bitwise complement on 64 bits. -/
def not64 (x : Nat) : Nat := 0xFFFFFFFFFFFFFFFF ^^^ x

/-- Big-endian interpretation of a byte list as a machine word. -/
def beWord (bs : List Nat) : Nat := bs.foldl (fun a b => 256 * a + b) 0

/-- Big-endian bytes of a 32-bit word. -/
def wordBytes32 (w : Nat) : List Nat :=
  (List.range 4).map (fun i => (w >>> ((3 - i) * 8)) &&& 0xFF)

/-- Big-endian bytes of a 64-bit word. -/
def wordBytes64 (w : Nat) : List Nat :=
  (List.range 8).map (fun i => (w >>> ((7 - i) * 8)) &&& 0xFF)

/-! ## SHA-1 (FIPS 180-4), the back-end behind `totp::<Sha1>` -/

/-- Merkle–Damgård padding for 64-byte blocks with a 64-bit length field. -/
def mdPad64 (msg : List Nat) : List Nat :=
  let bitLen := 8 * msg.length
  let z := (119 - msg.length % 64) % 64
  msg ++ [0x80] ++ List.replicate z 0 ++
    (List.range 8).map (fun i => (bitLen >>> ((7 - i) * 8)) &&& 0xFF)

/-- Merkle–Damgård padding for 128-byte blocks with a 128-bit length field. -/
def mdPad128 (msg : List Nat) : List Nat :=
  let bitLen := 8 * msg.length
  let z := (239 - msg.length % 128) % 128
  msg ++ [0x80] ++ List.replicate z 0 ++
    (List.range 16).map (fun i => (bitLen >>> ((15 - i) * 8)) &&& 0xFF)

/-- Expand the SHA-1 message schedule `n` more words; `r` holds the words
produced so far, most recent first, and the result is in forward order. -/
def sha1_expand : Nat → List Nat → List Nat
  | 0, r => r.reverse
  | n+1, r =>
    sha1_expand n
      ((rotl32 1 ((r.getD 2 0) ^^^ (r.getD 7 0) ^^^ (r.getD 13 0) ^^^ (r.getD 15 0))) :: r)

/-- One SHA-1 round; the first state component is the round index `t`. -/
def sha1_round (st : Nat × Nat × Nat × Nat × Nat × Nat) (wt : Nat) :
    Nat × Nat × Nat × Nat × Nat × Nat :=
  let (t, a, b, c, d, e) := st
  let f := if t < 20 then (b &&& c) ||| ((not32 b) &&& d)
           else if t < 40 then b ^^^ c ^^^ d
           else if t < 60 then (b &&& c) ||| (b &&& d) ||| (c &&& d)
           else b ^^^ c ^^^ d
  let k := if t < 20 then 0x5A827999 else if t < 40 then 0x6ED9EBA1
           else if t < 60 then 0x8F1BBCDC else 0xCA62C1D6
  let temp := (rotl32 5 a + f + e + k + wt) % 2 ^ 32
  (t + 1, temp, a, rotl32 30 b, c, d)

/-- SHA-1 compression of one 64-byte block into the running state. -/
def sha1_compress (h : List Nat) (block : List Nat) : List Nat :=
  let w0 := (List.range 16).map (fun i => beWord ((block.drop (4 * i)).take 4))
  let w := sha1_expand 64 w0.reverse
  match w.foldl sha1_round (0, h.getD 0 0, h.getD 1 0, h.getD 2 0, h.getD 3 0, h.getD 4 0) with
  | (_, a, b, c, d, e) =>
    [(h.getD 0 0 + a) % 2 ^ 32, (h.getD 1 0 + b) % 2 ^ 32, (h.getD 2 0 + c) % 2 ^ 32,
     (h.getD 3 0 + d) % 2 ^ 32, (h.getD 4 0 + e) % 2 ^ 32]

/-- SHA-1 digest (20 bytes) of a byte list. -/
def sha1 (msg : List Nat) : List Nat :=
  let padded := mdPad64 msg
  let blocks := (List.range (padded.length / 64)).map (fun i => (padded.drop (64 * i)).take 64)
  let h := blocks.foldl sha1_compress [0x67452301, 0xEFCDAB89, 0x98BADCFE, 0x10325476, 0xC3D2E1F0]
  (h.map wordBytes32).flatten

/-! ## SHA-256 (FIPS 180-4), the back-end behind `totp::<Sha256>` -/

/-- Round constants of SHA-256. -/
def sha256K : List Nat :=
  [0x428A2F98, 0x71374491, 0xB5C0FBCF, 0xE9B5DBA5, 0x3956C25B, 0x59F111F1, 0x923F82A4, 0xAB1C5ED5,
   0xD807AA98, 0x12835B01, 0x243185BE, 0x550C7DC3, 0x72BE5D74, 0x80DEB1FE, 0x9BDC06A7, 0xC19BF174,
   0xE49B69C1, 0xEFBE4786, 0x0FC19DC6, 0x240CA1CC, 0x2DE92C6F, 0x4A7484AA, 0x5CB0A9DC, 0x76F988DA,
   0x983E5152, 0xA831C66D, 0xB00327C8, 0xBF597FC7, 0xC6E00BF3, 0xD5A79147, 0x06CA6351, 0x14292967,
   0x27B70A85, 0x2E1B2138, 0x4D2C6DFC, 0x53380D13, 0x650A7354, 0x766A0ABB, 0x81C2C92E, 0x92722C85,
   0xA2BFE8A1, 0xA81A664B, 0xC24B8B70, 0xC76C51A3, 0xD192E819, 0xD6990624, 0xF40E3585, 0x106AA070,
   0x19A4C116, 0x1E376C08, 0x2748774C, 0x34B0BCB5, 0x391C0CB3, 0x4ED8AA4A, 0x5B9CCA4F, 0x682E6FF3,
   0x748F82EE, 0x78A5636F, 0x84C87814, 0x8CC70208, 0x90BEFFFA, 0xA4506CEB, 0xBEF9A3F7, 0xC67178F2]

/-- Expand the SHA-256 message schedule; `r` holds the words so far, most
recent first, and the result is in forward order. -/
def sha256_expand : Nat → List Nat → List Nat
  | 0, r => r.reverse
  | n+1, r =>
    let x15 := r.getD 14 0
    let x2 := r.getD 1 0
    let s0 := rotr32 7 x15 ^^^ rotr32 18 x15 ^^^ (x15 >>> 3)
    let s1 := rotr32 17 x2 ^^^ rotr32 19 x2 ^^^ (x2 >>> 10)
    sha256_expand n (((r.getD 15 0 + s0 + r.getD 6 0 + s1) % 2 ^ 32) :: r)

/-- One SHA-256 round on the 8-word state, fed one (schedule, constant) pair. -/
def sha256_round (st : Nat × Nat × Nat × Nat × Nat × Nat × Nat × Nat) (wk : Nat × Nat) :
    Nat × Nat × Nat × Nat × Nat × Nat × Nat × Nat :=
  let (a, b, c, d, e, f, g, hh) := st
  let (wt, kt) := wk
  let S1 := rotr32 6 e ^^^ rotr32 11 e ^^^ rotr32 25 e
  let ch := (e &&& f) ^^^ ((not32 e) &&& g)
  let t1 := (hh + S1 + ch + kt + wt) % 2 ^ 32
  let S0 := rotr32 2 a ^^^ rotr32 13 a ^^^ rotr32 22 a
  let mj := (a &&& b) ^^^ (a &&& c) ^^^ (b &&& c)
  let t2 := (S0 + mj) % 2 ^ 32
  ((t1 + t2) % 2 ^ 32, a, b, c, (d + t1) % 2 ^ 32, e, f, g)

/-- SHA-256 compression of one 64-byte block into the running state. -/
def sha256_compress (h : List Nat) (block : List Nat) : List Nat :=
  let w0 := (List.range 16).map (fun i => beWord ((block.drop (4 * i)).take 4))
  let w := sha256_expand 48 w0.reverse
  match (w.zip sha256K).foldl sha256_round
      (h.getD 0 0, h.getD 1 0, h.getD 2 0, h.getD 3 0,
       h.getD 4 0, h.getD 5 0, h.getD 6 0, h.getD 7 0) with
  | (a, b, c, d, e, f, g, hh) =>
    [(h.getD 0 0 + a) % 2 ^ 32, (h.getD 1 0 + b) % 2 ^ 32, (h.getD 2 0 + c) % 2 ^ 32,
     (h.getD 3 0 + d) % 2 ^ 32, (h.getD 4 0 + e) % 2 ^ 32, (h.getD 5 0 + f) % 2 ^ 32,
     (h.getD 6 0 + g) % 2 ^ 32, (h.getD 7 0 + hh) % 2 ^ 32]

/-- SHA-256 digest (32 bytes) of a byte list. -/
def sha256 (msg : List Nat) : List Nat :=
  let padded := mdPad64 msg
  let blocks := (List.range (padded.length / 64)).map (fun i => (padded.drop (64 * i)).take 64)
  let h := blocks.foldl sha256_compress
    [0x6A09E667, 0xBB67AE85, 0x3C6EF372, 0xA54FF53A, 0x510E527F, 0x9B05688C, 0x1F83D9AB, 0x5BE0CD19]
  (h.map wordBytes32).flatten

/-! ## SHA-512 (FIPS 180-4), the back-end behind `totp::<Sha512>` -/

/-- Round constants of SHA-512. -/
def sha512K : List Nat :=
  [0x428A2F98D728AE22, 0x7137449123EF65CD, 0xB5C0FBCFEC4D3B2F, 0xE9B5DBA58189DBBC,
   0x3956C25BF348B538, 0x59F111F1B605D019, 0x923F82A4AF194F9B, 0xAB1C5ED5DA6D8118,
   0xD807AA98A3030242, 0x12835B0145706FBE, 0x243185BE4EE4B28C, 0x550C7DC3D5FFB4E2,
   0x72BE5D74F27B896F, 0x80DEB1FE3B1696B1, 0x9BDC06A725C71235, 0xC19BF174CF692694,
   0xE49B69C19EF14AD2, 0xEFBE4786384F25E3, 0x0FC19DC68B8CD5B5, 0x240CA1CC77AC9C65,
   0x2DE92C6F592B0275, 0x4A7484AA6EA6E483, 0x5CB0A9DCBD41FBD4, 0x76F988DA831153B5,
   0x983E5152EE66DFAB, 0xA831C66D2DB43210, 0xB00327C898FB213F, 0xBF597FC7BEEF0EE4,
   0xC6E00BF33DA88FC2, 0xD5A79147930AA725, 0x06CA6351E003826F, 0x142929670A0E6E70,
   0x27B70A8546D22FFC, 0x2E1B21385C26C926, 0x4D2C6DFC5AC42AED, 0x53380D139D95B3DF,
   0x650A73548BAF63DE, 0x766A0ABB3C77B2A8, 0x81C2C92E47EDAEE6, 0x92722C851482353B,
   0xA2BFE8A14CF10364, 0xA81A664BBC423001, 0xC24B8B70D0F89791, 0xC76C51A30654BE30,
   0xD192E819D6EF5218, 0xD69906245565A910, 0xF40E35855771202A, 0x106AA07032BBD1B8,
   0x19A4C116B8D2D0C8, 0x1E376C085141AB53, 0x2748774CDF8EEB99, 0x34B0BCB5E19B48A8,
   0x391C0CB3C5C95A63, 0x4ED8AA4AE3418ACB, 0x5B9CCA4F7763E373, 0x682E6FF3D6B2B8A3,
   0x748F82EE5DEFB2FC, 0x78A5636F43172F60, 0x84C87814A1F0AB72, 0x8CC702081A6439EC,
   0x90BEFFFA23631E28, 0xA4506CEBDE82BDE9, 0xBEF9A3F7B2C67915, 0xC67178F2E372532B,
   0xCA273ECEEA26619C, 0xD186B8C721C0C207, 0xEADA7DD6CDE0EB1E, 0xF57D4F7FEE6ED178,
   0x06F067AA72176FBA, 0x0A637DC5A2C898A6, 0x113F9804BEF90DAE, 0x1B710B35131C471B,
   0x28DB77F523047D84, 0x32CAAB7B40C72493, 0x3C9EBE0A15C9BEBC, 0x431D67C49C100D4C,
   0x4CC5D4BECB3E42B6, 0x597F299CFC657E2A, 0x5FCB6FAB3AD6FAEC, 0x6C44198C4A475817]

/-- Expand the SHA-512 message schedule; `r` holds the words so far, most
recent first, and the result is in forward order. -/
def sha512_expand : Nat → List Nat → List Nat
  | 0, r => r.reverse
  | n+1, r =>
    let x15 := r.getD 14 0
    let x2 := r.getD 1 0
    let s0 := rotr64 1 x15 ^^^ rotr64 8 x15 ^^^ (x15 >>> 7)
    let s1 := rotr64 19 x2 ^^^ rotr64 61 x2 ^^^ (x2 >>> 6)
    sha512_expand n (((r.getD 15 0 + s0 + r.getD 6 0 + s1) % 2 ^ 64) :: r)

/-- One SHA-512 round on the 8-word state, fed one (schedule, constant) pair. -/
def sha512_round (st : Nat × Nat × Nat × Nat × Nat × Nat × Nat × Nat) (wk : Nat × Nat) :
    Nat × Nat × Nat × Nat × Nat × Nat × Nat × Nat :=
  let (a, b, c, d, e, f, g, hh) := st
  let (wt, kt) := wk
  let S1 := rotr64 14 e ^^^ rotr64 18 e ^^^ rotr64 41 e
  let ch := (e &&& f) ^^^ ((not64 e) &&& g)
  let t1 := (hh + S1 + ch + kt + wt) % 2 ^ 64
  let S0 := rotr64 28 a ^^^ rotr64 34 a ^^^ rotr64 39 a
  let mj := (a &&& b) ^^^ (a &&& c) ^^^ (b &&& c)
  let t2 := (S0 + mj) % 2 ^ 64
  ((t1 + t2) % 2 ^ 64, a, b, c, (d + t1) % 2 ^ 64, e, f, g)

/-- SHA-512 compression of one 128-byte block into the running state. -/
def sha512_compress (h : List Nat) (block : List Nat) : List Nat :=
  let w0 := (List.range 16).map (fun i => beWord ((block.drop (8 * i)).take 8))
  let w := sha512_expand 64 w0.reverse
  match (w.zip sha512K).foldl sha512_round
      (h.getD 0 0, h.getD 1 0, h.getD 2 0, h.getD 3 0,
       h.getD 4 0, h.getD 5 0, h.getD 6 0, h.getD 7 0) with
  | (a, b, c, d, e, f, g, hh) =>
    [(h.getD 0 0 + a) % 2 ^ 64, (h.getD 1 0 + b) % 2 ^ 64, (h.getD 2 0 + c) % 2 ^ 64,
     (h.getD 3 0 + d) % 2 ^ 64, (h.getD 4 0 + e) % 2 ^ 64, (h.getD 5 0 + f) % 2 ^ 64,
     (h.getD 6 0 + g) % 2 ^ 64, (h.getD 7 0 + hh) % 2 ^ 64]

/-- SHA-512 digest (64 bytes) of a byte list. -/
def sha512 (msg : List Nat) : List Nat :=
  let padded := mdPad128 msg
  let blocks := (List.range (padded.length / 128)).map (fun i => (padded.drop (128 * i)).take 128)
  let h := blocks.foldl sha512_compress
    [0x6A09E667F3BCC908, 0xBB67AE8584CAA73B, 0x3C6EF372FE94F82B, 0xA54FF53A5F1D36F1,
     0x510E527FADE682D1, 0x9B05688C2B3E6C1F, 0x1F83D9ABFB41BD6B, 0x5BE0CD19137E2179]
  (h.map wordBytes64).flatten

/-! ## HMAC (RFC 2104), the `Hmac<H>` the crate instantiates -/

/-- Hash algorithm as `totp`'s type parameter `H`: the HMAC block size of
the underlying digest together with the digest function itself. -/
structure HashAlg where
  block_size : Nat
  hash : List Nat → List Nat

/-- The crate's re-exported `Sha1` parameter. -/
def Sha1 : HashAlg := ⟨64, sha1⟩

/-- The crate's re-exported `Sha256` parameter. -/
def Sha256 : HashAlg := ⟨64, sha256⟩

/-- The crate's re-exported `Sha512` parameter. -/
def Sha512 : HashAlg := ⟨128, sha512⟩

/-- HMAC key preprocessing: a key longer than the block size is hashed
first, then the key is zero-padded to the block size (RFC 2104). -/
def hmac_key_block (H : HashAlg) (key : List Nat) : List Nat :=
  let k0 := if H.block_size < key.length then H.hash key else key
  k0 ++ List.replicate (H.block_size - k0.length) 0

/-- HMAC over a preprocessed key block:
`H((K xor opad) ++ H((K xor ipad) ++ msg))` (RFC 2104). -/
def hmac (H : HashAlg) (kb msg : List Nat) : List Nat :=
  H.hash ((kb.map (fun b => b ^^^ 0x5C)) ++ H.hash ((kb.map (fun b => b ^^^ 0x36)) ++ msg))

/-- Embedding of `<Hmac<H> as Mac>::new_from_slice(secret)` at line 118 of
`lib.rs`.  For HMAC the RustCrypto implementation accepts a key of any
length, the empty key included (short keys are zero-padded, long keys are
hashed first), so the `Result` it returns is always `Ok`; the `Option`
here keeps the error branch of the caller's `.unwrap()` statable. -/
def new_from_slice (H : HashAlg) (key : List Nat) : Option (List Nat) :=
  some (hmac_key_block H key)

/-! ## The crate's own code (`src/lib.rs`) -/

/-- Embedding of `to_bytes` (lines 133-138 of `lib.rs`): convert a `u64`
into its individual bytes, most significant first, by mutating an
8-byte zero buffer. -/
def to_bytes (n : Nat) : List Nat :=
  let mask := 0x00000000000000FF
  (List.range 8).foldl (fun bytes i => bytes.set (7 - i) (mask &&& (n >>> (i * 8)))) (List.replicate 8 0)

/-- Rust integer division `time / step`, which panics when `step == 0`;
the panic is the `none` branch. -/
def checked_div (a b : Nat) : Option Nat := if b = 0 then none else some (a / b)

/-- The truncation offset of `totp_custom` (line 123 of `lib.rs`): the low
nibble of the last digest byte. -/
def dynamic_offset (hash : List Nat) : Nat := (hash.getLast?.getD 0) &&& 0xF

/-- The truncated 31-bit value of `totp_custom` (lines 124-127 of
`lib.rs`): four digest bytes at the dynamic offset, big-endian, with the
top bit of the first masked off. -/
def dynamic_binary (hash : List Nat) : Nat :=
  let offset := dynamic_offset hash
  (((hash.getD offset 0) &&& 0x7F) <<< 24) ||| ((hash.getD (offset + 1) 0) <<< 16) |||
    ((hash.getD (offset + 2) 0) <<< 8) ||| (hash.getD (offset + 3) 0)

/-- Fuel-driven little-endian decimal digits (`digitsRev n n` is total
because `n / 10 < n`); kept structural so that the kernel can run it. -/
def digitsRev : Nat → Nat → List Nat
  | 0, _ => []
  | _+1, 0 => []
  | f+1, n+1 => ((n+1) % 10) :: digitsRev f ((n+1) / 10)

/-- Little-endian decimal digits of `n` (empty for `n = 0`). -/
def decDigits (n : Nat) : List Nat := digitsRev n n

/-- Characters of `format!` with format string `{:01$}` (line 129 of
`lib.rs`): the decimal representation of `n`, left-padded with `'0'` to
`width` characters. -/
def fmtChars (width : Nat) (n : Nat) : List Char :=
  let s := if n = 0 then ['0'] else ((decDigits n).map Nat.digitChar).reverse
  List.replicate (width - s.length) '0' ++ s

/-- String produced by `format!("{:01$}", n, width)`. -/
def fmt (width : Nat) (n : Nat) : String := ⟨fmtChars width n⟩

/-- Embedding of `10_u64.pow(digits)` at line 129 of `lib.rs`, with the
wrapping semantics of compiled (release) Rust `u64` arithmetic: the power
reduced modulo `2 ^ 64`.  It wraps to a nonzero value for
`20 ≤ digits ≤ 63` and to zero from `digits = 64` on (a debug build would
already panic on the overflow itself, from `digits = 20`). -/
def pow10_u64 (digits : Nat) : Nat := (10 ^ digits) % 2 ^ 64

/-- Rust remainder `%`, which panics when the right operand is zero; the
panic is the `none` branch. -/
def checked_rem (a b : Nat) : Option Nat := if b = 0 then none else some (a % b)

/-- Embedding of `totp_custom` (lines 105-130 of `lib.rs`).  `none` models
a panic: the `.unwrap()` on HMAC key setup (which in fact never fires), a
division by `step == 0`, or the remainder by `10_u64.pow(digits)` when
that wrapping u64 power is zero (`digits ≥ 64`). -/
def totp_custom (H : HashAlg) (step digits : Nat) (secret : List Nat) (time : Nat) :
    Option String :=
  match new_from_slice H secret with
  | none => none
  | some kb =>
    match checked_div time step with
    | none => none
    | some counter =>
      let hash := hmac H kb (to_bytes counter)
      match checked_rem (dynamic_binary hash) (pow10_u64 digits) with
      | none => none
      | some code => some (fmt digits code)

/-- Embedding of the crate's `DEFAULT_STEP`: 30 seconds. -/
def DEFAULT_STEP : Nat := 30

/-- Embedding of the crate's `DEFAULT_DIGITS`: 8 digits of output. -/
def DEFAULT_DIGITS : Nat := 8

/-- Embedding of `totp` (lines 74-87 of `lib.rs`). -/
def totp (H : HashAlg) (secret : List Nat) (time : Nat) : Option String :=
  totp_custom H DEFAULT_STEP DEFAULT_DIGITS secret time

/-! ## The RFC 6238 Appendix B secrets -/

/-- ASCII bytes of the 20-byte secret "12345678901234567890". -/
def secret20 : List Nat := "12345678901234567890".data.map Char.toNat

/-- ASCII bytes of the 32-byte secret "12345678901234567890123456789012". -/
def secret32 : List Nat := "12345678901234567890123456789012".data.map Char.toNat

/-- ASCII bytes of the 64-byte repeating-digit secret. -/
def secret64 : List Nat :=
  "1234567890123456789012345678901234567890123456789012345678901234".data.map Char.toNat

/-! ## Observations on code strings -/

/-- ASCII decimal digit predicate: code point between 48 and 57. -/
def isAsciiDigit (c : Char) : Bool := 48 ≤ c.toNat && c.toNat ≤ 57

/-- Numeric value of a decimal digit string (most significant first). -/
def charsVal (cs : List Char) : Nat := cs.foldl (fun a c => 10 * a + (c.toNat - 48)) 0

/-! ## Helper lemmas on decimal digits and code strings -/

theorem digitsRev_eq_digits (f : Nat) : ∀ n : Nat, n ≤ f → digitsRev f n = Nat.digits 10 n := by
  induction f with
  | zero =>
    intro n hn
    interval_cases n
    simp [digitsRev]
  | succ f ih =>
    intro n hn
    match n with
    | 0 => simp [digitsRev]
    | n+1 =>
      have hdiv : (n + 1) / 10 < n + 1 := Nat.div_lt_self (Nat.succ_pos n) (by norm_num)
      rw [digitsRev, ih ((n + 1) / 10) (by omega),
        Nat.digits_def' (b := 10) (by norm_num) (Nat.succ_pos n)]

theorem decDigits_eq_digits (n : Nat) : decDigits n = Nat.digits 10 n :=
  digitsRev_eq_digits n n le_rfl

theorem decDigits_mem_lt (n : Nat) : ∀ d ∈ decDigits n, d < 10 := by
  intro d hd
  rw [decDigits_eq_digits] at hd
  exact Nat.digits_lt_base (by norm_num) hd

theorem ofDigits_decDigits (n : Nat) : Nat.ofDigits 10 (decDigits n) = n := by
  rw [decDigits_eq_digits]
  exact Nat.ofDigits_digits 10 n

theorem decDigits_length_le (w n : Nat) (hn : n < 10 ^ w) : (decDigits n).length ≤ w := by
  rw [decDigits_eq_digits]
  rcases Nat.eq_zero_or_pos n with h0 | h0
  · simp [h0]
  · rw [Nat.digits_len 10 n (by norm_num) (Nat.pos_iff_ne_zero.mp h0)]
    have := (Nat.lt_pow_iff_log_lt (b := 10) (by norm_num)
      (Nat.pos_iff_ne_zero.mp h0)).mp hn
    omega

theorem charsVal_foldl_shift (cs : List Char) : ∀ a : Nat,
    cs.foldl (fun a c => 10 * a + (c.toNat - 48)) a = a * 10 ^ cs.length + charsVal cs := by
  induction cs with
  | nil => intro a; simp [charsVal]
  | cons c cs ih =>
    intro a
    show List.foldl _ (10 * a + (c.toNat - 48)) cs = _
    rw [ih]
    have h2 : charsVal (c :: cs) = (c.toNat - 48) * 10 ^ cs.length + charsVal cs := by
      show List.foldl _ (10 * 0 + (c.toNat - 48)) cs = _
      rw [ih]
      ring_nf
    rw [h2, List.length_cons]
    ring

theorem charsVal_cons (c : Char) (cs : List Char) :
    charsVal (c :: cs) = (c.toNat - 48) * 10 ^ cs.length + charsVal cs := by
  show List.foldl _ (10 * 0 + (c.toNat - 48)) cs = _
  rw [charsVal_foldl_shift]
  ring_nf

theorem charsVal_append (s t : List Char) :
    charsVal (s ++ t) = charsVal s * 10 ^ t.length + charsVal t := by
  show List.foldl _ 0 (s ++ t) = _
  rw [List.foldl_append, charsVal_foldl_shift]
  rfl

theorem charsVal_replicate_zero (k : Nat) : charsVal (List.replicate k '0') = 0 := by
  induction k with
  | zero => rfl
  | succ k ih =>
    rw [List.replicate_succ, charsVal_cons, ih]
    norm_num
    rfl

theorem charsVal_lt (cs : List Char) (h : ∀ c ∈ cs, isAsciiDigit c) :
    charsVal cs < 10 ^ cs.length := by
  induction cs with
  | nil => simp [charsVal]
  | cons c cs ih =>
    rw [charsVal_cons]
    have hc : c.toNat - 48 ≤ 9 := by
      have := h c (List.mem_cons_self c cs)
      simp [isAsciiDigit] at this
      omega
    have hcs := ih (fun x hx => h x (List.mem_cons_of_mem _ hx))
    rw [List.length_cons, pow_succ]
    calc (c.toNat - 48) * 10 ^ cs.length + charsVal cs
        < (c.toNat - 48) * 10 ^ cs.length + 10 ^ cs.length := Nat.add_lt_add_left hcs _
      _ ≤ 9 * 10 ^ cs.length + 10 ^ cs.length :=
        Nat.add_le_add_right (Nat.mul_le_mul_right _ hc) _
      _ = 10 ^ cs.length * 10 := by ring

theorem char_eq_of_toNat_eq {c c' : Char} (h : c.toNat = c'.toNat) : c = c' :=
  Char.ext (UInt32.toNat.inj h)

theorem charsVal_inj (s : List Char) : ∀ t : List Char,
    (∀ c ∈ s, isAsciiDigit c) → (∀ c ∈ t, isAsciiDigit c) →
    s.length = t.length → charsVal s = charsVal t → s = t := by
  induction s with
  | nil =>
    intro t _ _ hlen _
    cases t with
    | nil => rfl
    | cons c t => simp at hlen
  | cons c s ih =>
    intro t hs ht hlen hval
    cases t with
    | nil => simp at hlen
    | cons c' t =>
      have hlen' : s.length = t.length := by simpa using hlen
      rw [charsVal_cons, charsVal_cons, hlen'] at hval
      have hvs : charsVal s < 10 ^ t.length := by
        rw [← hlen']
        exact charsVal_lt s (fun x hx => hs x (List.mem_cons_of_mem _ hx))
      have hvt : charsVal t < 10 ^ t.length :=
        charsVal_lt t (fun x hx => ht x (List.mem_cons_of_mem _ hx))
      have hd : c.toNat - 48 = c'.toNat - 48 := by
        have hp : 0 < 10 ^ t.length := Nat.pos_pow_of_pos _ (by norm_num)
        have e1 : ((c.toNat - 48) * 10 ^ t.length + charsVal s) / 10 ^ t.length
            = c.toNat - 48 := by
          rw [Nat.mul_comm, Nat.mul_add_div hp, Nat.div_eq_of_lt hvs, Nat.add_zero]
        have e2 : ((c'.toNat - 48) * 10 ^ t.length + charsVal t) / 10 ^ t.length
            = c'.toNat - 48 := by
          rw [Nat.mul_comm, Nat.mul_add_div hp, Nat.div_eq_of_lt hvt, Nat.add_zero]
        rw [← e1, ← e2, hval]
      have hcc : c = c' := by
        have h48 : 48 ≤ c.toNat := by
          have := hs c (List.mem_cons_self c s)
          simp [isAsciiDigit] at this
          omega
        have h48' : 48 ≤ c'.toNat := by
          have := ht c' (List.mem_cons_self c' t)
          simp [isAsciiDigit] at this
          omega
        exact char_eq_of_toNat_eq (by omega)
      subst hcc
      rw [hd] at hval
      have hvv : charsVal s = charsVal t := by omega
      rw [ih t (fun x hx => hs x (List.mem_cons_of_mem _ hx))
        (fun x hx => ht x (List.mem_cons_of_mem _ hx)) hlen' hvv]

theorem digitChar_toNat (d : Nat) (h : d < 10) : (Nat.digitChar d).toNat = 48 + d := by
  interval_cases d <;> rfl

theorem digitChar_isAsciiDigit (d : Nat) (h : d < 10) : isAsciiDigit (Nat.digitChar d) := by
  interval_cases d <;> rfl

theorem charsVal_rev_map_digits (l : List Nat) (hl : ∀ d ∈ l, d < 10) :
    charsVal ((l.map Nat.digitChar).reverse) = Nat.ofDigits 10 l := by
  induction l with
  | nil => rfl
  | cons d l ih =>
    have hd : d < 10 := hl d (List.mem_cons_self d l)
    have h1 : charsVal [Nat.digitChar d] = d := by
      rw [show [Nat.digitChar d] = Nat.digitChar d :: [] from rfl, charsVal_cons,
        digitChar_toNat d hd]
      simp [charsVal]
    rw [List.map_cons, List.reverse_cons, charsVal_append,
      ih (fun x hx => hl x (List.mem_cons_of_mem _ hx)), h1, Nat.ofDigits_cons]
    simp
    ring

theorem fmtChars_val (w n : Nat) : charsVal (fmtChars w n) = n := by
  rw [fmtChars]
  rcases eq_or_ne n 0 with h0 | h0
  · subst h0
    simp [charsVal_append, charsVal_replicate_zero]
    rfl
  · simp only [h0, if_neg, ite_false, charsVal_append, charsVal_replicate_zero]
    rw [charsVal_rev_map_digits (decDigits n) (decDigits_mem_lt n), ofDigits_decDigits]
    simp

theorem fmtChars_length (w n : Nat) (h1 : 1 ≤ w) (hn : n < 10 ^ w) :
    (fmtChars w n).length = w := by
  rw [fmtChars]
  rcases eq_or_ne n 0 with h0 | h0
  · subst h0
    simp
    omega
  · simp only [h0, ite_false, List.length_append, List.length_replicate,
      List.length_reverse, List.length_map]
    have := decDigits_length_le w n hn
    omega

theorem fmtChars_all_digits (w n : Nat) : ∀ c ∈ fmtChars w n, isAsciiDigit c := by
  intro c hc
  rw [fmtChars] at hc
  rcases List.mem_append.mp hc with h | h
  · rw [List.eq_of_mem_replicate h]
    rfl
  · rcases eq_or_ne n 0 with h0 | h0
    · simp [h0] at h
      rw [h]
      rfl
    · simp only [h0, ite_false, List.mem_reverse, List.mem_map] at h
      obtain ⟨d, hd, rfl⟩ := h
      exact digitChar_isAsciiDigit d (decDigits_mem_lt n d hd)

theorem getD_lt_of_mem_lt {hash : List Nat} (hb : ∀ b ∈ hash, b < 256) {j : Nat}
    (hj : j < hash.length) : hash.getD j 0 < 256 := by
  have : hash.getD j 0 = hash.get ⟨j, hj⟩ := by
    rw [List.getD_eq_getElem?_getD, List.getElem?_eq_getElem hj]
    rfl
  rw [this]
  exact hb _ (List.get_mem hash j hj)

theorem fmtChars_drop (d1 d2 B : Nat) (h1 : 1 ≤ d1) (h12 : d1 ≤ d2) :
    (fmtChars d2 (B % 10 ^ d2)).drop (d2 - d1) = fmtChars d1 (B % 10 ^ d1) := by
  have hp1 : 0 < 10 ^ d1 := Nat.pos_pow_of_pos _ (by norm_num)
  have hp2 : 0 < 10 ^ d2 := Nat.pos_pow_of_pos _ (by norm_num)
  set s2 := fmtChars d2 (B % 10 ^ d2) with hs2
  have hlen2 : s2.length = d2 := fmtChars_length _ _ (le_trans h1 h12) (Nat.mod_lt _ hp2)
  have hdigd : ∀ c ∈ s2.drop (d2 - d1), isAsciiDigit c := fun c hc =>
    fmtChars_all_digits _ _ c (List.drop_subset _ _ hc)
  have hlend : (s2.drop (d2 - d1)).length = d1 := by
    rw [List.length_drop, hlen2]
    omega
  have hlt : charsVal (s2.drop (d2 - d1)) < 10 ^ d1 := by
    have := charsVal_lt _ hdigd
    rwa [hlend] at this
  have hsplit : charsVal (s2.take (d2 - d1)) * 10 ^ d1 + charsVal (s2.drop (d2 - d1))
      = charsVal s2 := by
    have := charsVal_append (s2.take (d2 - d1)) (s2.drop (d2 - d1))
    rw [List.take_append_drop, hlend] at this
    omega
  have hvald : charsVal (s2.drop (d2 - d1)) = B % 10 ^ d1 := by
    have e1 : (charsVal (s2.take (d2 - d1)) * 10 ^ d1 + charsVal (s2.drop (d2 - d1)))
        % 10 ^ d1 = charsVal (s2.drop (d2 - d1)) := by
      rw [Nat.mul_comm, Nat.mul_add_mod, Nat.mod_eq_of_lt hlt]
    rw [← e1, hsplit, fmtChars_val, Nat.mod_mod_of_dvd B (pow_dvd_pow 10 h12)]
  exact charsVal_inj _ _ hdigd (fmtChars_all_digits _ _)
    (by rw [hlend, fmtChars_length _ _ h1 (Nat.mod_lt _ hp1)])
    (by rw [hvald, fmtChars_val])

/-- Wrapped u64 power of ten is zero exactly from 64 digits on: for
`digits < 64` the 2-adic valuation of `10 ^ digits` stays below 64, and
from 64 on the factor `2 ^ 64` divides it. -/
theorem pow10_u64_eq_zero_iff (digits : Nat) : pow10_u64 digits = 0 ↔ 64 ≤ digits := by
  constructor
  · intro h
    by_contra hlt
    push_neg at hlt
    have hle : digits ≤ 63 := by omega
    interval_cases digits <;> exact absurd h (by decide)
  · intro h
    have hsplit : (10 : Nat) ^ digits = 10 ^ 64 * 10 ^ (digits - 64) := by
      rw [← pow_add]
      congr 1
      omega
    rw [pow10_u64, hsplit, Nat.mul_mod, show (10 : Nat) ^ 64 % 2 ^ 64 = 0 by norm_num]
    simp

/-- Normal-path equation of `totp_custom`: HMAC key setup always succeeds,
for a nonzero step the division succeeds, and for a nonzero wrapped
modulus the remainder succeeds, so the result is the formatted truncation
of `HMAC(secret, to_bytes(time / step))` modulo the wrapped power. -/
theorem totp_custom_eq_wrapped (H : HashAlg) (step digits : Nat) (secret : List Nat)
    (time : Nat) (hstep : step ≠ 0) (hm : pow10_u64 digits ≠ 0) :
    totp_custom H step digits secret time =
      some (fmt digits (dynamic_binary (hmac H (hmac_key_block H secret)
        (to_bytes (time / step))) % pow10_u64 digits)) := by
  simp [totp_custom, new_from_slice, checked_div, checked_rem, hstep, hm]

/-- Normal-path equation of `totp_custom` on the overflow-free digit range
`digits ≤ 19`, where the u64 power `10 ^ digits` does not wrap. -/
theorem totp_custom_eq (H : HashAlg) (step digits : Nat) (secret : List Nat) (time : Nat)
    (hstep : step ≠ 0) (hdig : digits ≤ 19) :
    totp_custom H step digits secret time =
      some (fmt digits (dynamic_binary (hmac H (hmac_key_block H secret)
        (to_bytes (time / step))) % 10 ^ digits)) := by
  have hm : pow10_u64 digits = 10 ^ digits := by
    rw [pow10_u64]
    exact Nat.mod_eq_of_lt (lt_of_le_of_lt
      (Nat.pow_le_pow_right (by norm_num) hdig) (by norm_num))
  rw [totp_custom_eq_wrapped H step digits secret time hstep
    (by rw [hm]; exact Nat.pos_iff_ne_zero.mp (Nat.pos_pow_of_pos _ (by norm_num))), hm]

/-! ## The claims -/

/-- C2: the convenience entry point `totp` equals `totp_custom` at
step = 30 seconds and digits = 8, for every hash algorithm, secret and
time. -/
theorem totp_eq_totp_custom_defaults (H : HashAlg) (secret : List Nat) (time : Nat) :
    totp H secret time = totp_custom H 30 8 secret time := rfl

/-- C3: for digits in [1,10], any secret, time, nonzero step and hash
algorithm, the code returned by `totp_custom` has length exactly `digits`,
consists only of ASCII decimal digit characters, and its numeric value is
the truncated 31-bit HMAC value modulo `10 ^ digits` (together with the
length this pins the string down as the left-zero-padded decimal). -/
theorem totp_custom_output_shape (H : HashAlg) (step digits : Nat) (secret : List Nat)
    (time : Nat) (hstep : step ≠ 0) (hd1 : 1 ≤ digits) (hd10 : digits ≤ 10) :
    ∃ s : String, totp_custom H step digits secret time = some s ∧
      s.length = digits ∧ (∀ c ∈ s.data, isAsciiDigit c) ∧
      charsVal s.data = dynamic_binary (hmac H (hmac_key_block H secret)
        (to_bytes (time / step))) % 10 ^ digits := by
  refine ⟨_, totp_custom_eq H step digits secret time hstep (by omega), ?_, ?_, ?_⟩
  · exact fmtChars_length _ _ hd1 (Nat.mod_lt _ (Nat.pos_pow_of_pos _ (by norm_num)))
  · exact fmtChars_all_digits _ _
  · exact fmtChars_val _ _

/-- C4: `to_bytes` serializes a `u64` most-significant byte first, byte
`i` being `(n >>> (8*(7-i))) &&& 0xFF`; in particular the counter bytes
for timestamp 59 at step 30 and timestamp 1111111109 at step 30 are the
RFC values.  Inside `totp_custom` the serialized value is the counter
`time / step` (see `totp_custom_eq`). -/
theorem to_bytes_big_endian (n i : Nat) (hn : n < 2 ^ 64) (hi : i < 8) :
    (to_bytes n).getD i 0 = (n >>> (8 * (7 - i))) &&& 0xFF ∧
    to_bytes (59 / 30) = [0, 0, 0, 0, 0, 0, 0, 1] ∧
    to_bytes (1111111109 / 30) = [0, 0, 0, 0, 0x02, 0x35, 0x23, 0xEC] := by
  have hexp : to_bytes n =
      [0xFF &&& (n >>> 56), 0xFF &&& (n >>> 48), 0xFF &&& (n >>> 40), 0xFF &&& (n >>> 32),
       0xFF &&& (n >>> 24), 0xFF &&& (n >>> 16), 0xFF &&& (n >>> 8), 0xFF &&& (n >>> 0)] := rfl
  refine ⟨?_, by decide, by decide⟩
  interval_cases i <;>
    simp [hexp, Nat.land_comm]

/-- C5: `totp_custom` depends on the timestamp only through the counter
`time / step`, so two timestamps in the same window produce the same
code. -/
theorem totp_custom_constant_within_window (H : HashAlg) (step digits : Nat)
    (secret : List Nat) (t1 t2 : Nat) (hstep : step ≠ 0) (hlt : t1 < t2)
    (hwin : t1 / step = t2 / step) :
    totp_custom H step digits secret t1 = totp_custom H step digits secret t2 := by
  unfold totp_custom
  rw [show checked_div t1 step = checked_div t2 step from by simp [checked_div, hwin]]

/-- C8 counterexample: `step = 0` is not the only error branch; at
`digits = 64` the wrapping u64 power `10_u64.pow(digits)` is zero, so the
remainder panics even though `step = 30 > 0` and the division succeeds. -/
theorem step_zero_not_only_failure :
    totp_custom Sha1 30 64 secret20 59 = none ∧ (30 : Nat) ≠ 0 :=
  ⟨by decide, by decide⟩

/-- C8 (amended): when `step = 0` the error branch is always taken and no
code string is returned; for `step > 0` the division never fails, and the
only remaining error branch is the remainder by the wrapping u64 power
`10_u64.pow(digits)`, which is zero exactly for `digits ≥ 64`: the error
branch is taken exactly when `step = 0` or `64 ≤ digits`. -/
theorem totp_custom_none_iff (H : HashAlg) (step digits : Nat)
    (secret : List Nat) (time : Nat) :
    totp_custom H step digits secret time = none ↔ step = 0 ∨ 64 ≤ digits := by
  rcases eq_or_ne step 0 with h | h
  · subst h
    simp [totp_custom, new_from_slice, checked_div]
  · rcases Nat.lt_or_ge digits 64 with hd | hd
    · rw [totp_custom_eq_wrapped H step digits secret time h
        (fun h0 => absurd ((pow10_u64_eq_zero_iff digits).mp h0) (by omega))]
      simp [h]
      omega
    · have hm0 : pow10_u64 digits = 0 := (pow10_u64_eq_zero_iff digits).mpr hd
      simp [totp_custom, new_from_slice, checked_div, checked_rem, h, hm0, hd]

/-- C9: on any digest of at least 20 bytes (all bytes below 256), the
dynamic-truncation offset satisfies `offset + 3 < length`, so all four
byte accesses are in bounds, and the assembled value is below `2 ^ 31`. -/
theorem dynamic_truncation_bounds (hash : List Nat) (hlen : 20 ≤ hash.length)
    (hbytes : ∀ b ∈ hash, b < 256) :
    dynamic_offset hash + 3 < hash.length ∧ dynamic_binary hash < 2 ^ 31 := by
  have hoff : dynamic_offset hash ≤ 15 := Nat.and_le_right
  refine ⟨by omega, ?_⟩
  simp only [dynamic_binary]
  have h0 : (hash.getD (dynamic_offset hash) 0 &&& 0x7F) <<< 24 < 2 ^ 31 := by
    rw [Nat.shiftLeft_eq]
    have hb : hash.getD (dynamic_offset hash) 0 &&& 0x7F ≤ 0x7F := Nat.and_le_right
    calc (hash.getD (dynamic_offset hash) 0 &&& 0x7F) * 2 ^ 24
        ≤ 0x7F * 2 ^ 24 := Nat.mul_le_mul_right _ hb
      _ < 2 ^ 31 := by norm_num
  have hbyte : ∀ j, j < hash.length → hash.getD j 0 < 256 := fun j hj =>
    getD_lt_of_mem_lt hbytes hj
  have h1 : (hash.getD (dynamic_offset hash + 1) 0) <<< 16 < 2 ^ 31 := by
    rw [Nat.shiftLeft_eq]
    calc (hash.getD (dynamic_offset hash + 1) 0) * 2 ^ 16
        < 256 * 2 ^ 16 := by
          have := hbyte (dynamic_offset hash + 1) (by omega)
          exact mul_lt_mul_of_pos_right this (by norm_num)
      _ ≤ 2 ^ 31 := by norm_num
  have h2 : (hash.getD (dynamic_offset hash + 2) 0) <<< 8 < 2 ^ 31 := by
    rw [Nat.shiftLeft_eq]
    calc (hash.getD (dynamic_offset hash + 2) 0) * 2 ^ 8
        < 256 * 2 ^ 8 := by
          have := hbyte (dynamic_offset hash + 2) (by omega)
          exact mul_lt_mul_of_pos_right this (by norm_num)
      _ ≤ 2 ^ 31 := by norm_num
  have h3 : hash.getD (dynamic_offset hash + 3) 0 < 2 ^ 31 := by
    have := hbyte (dynamic_offset hash + 3) (by omega)
    omega
  exact Nat.or_lt_two_pow (Nat.or_lt_two_pow (Nat.or_lt_two_pow h0 h1) h2) h3

/-- C10: with digits = 0 the reduction is modulo `10 ^ 0 = 1`, the value
is 0, and zero-width formatting still prints one digit, so `totp_custom`
returns the one-character string "0" for every secret, time, nonzero step
and hash algorithm. -/
theorem totp_custom_zero_digits (H : HashAlg) (step : Nat) (secret : List Nat)
    (time : Nat) (hstep : step ≠ 0) :
    totp_custom H step 0 secret time = some "0" ∧ ("0" : String).length = 1 := by
  refine ⟨?_, rfl⟩
  rw [totp_custom_eq H step 0 secret time hstep (by norm_num)]
  rw [pow_zero, Nat.mod_one]
  rfl

/-- C6 (amended): for 1 ≤ d1 ≤ d2 ≤ 10 and a nonzero step, the d1-digit
code is the length-d1 suffix of the d2-digit code for the same secret,
time, step and algorithm. -/
theorem digit_code_suffix (H : HashAlg) (step : Nat) (secret : List Nat)
    (time d1 d2 : Nat) (hstep : step ≠ 0) (h1 : 1 ≤ d1) (h12 : d1 ≤ d2) (h10 : d2 ≤ 10) :
    ∃ s1 s2 : String, totp_custom H step d1 secret time = some s1 ∧
      totp_custom H step d2 secret time = some s2 ∧
      s1.data = s2.data.drop (d2 - d1) := by
  refine ⟨_, _, totp_custom_eq H step d1 secret time hstep (by omega),
    totp_custom_eq H step d2 secret time hstep (by omega), ?_⟩
  exact (fmtChars_drop d1 d2 _ h1 h12).symm

/-- C7 (amended): HMAC key setup accepts the empty secret (the key block
is all zeros), so `totp_custom` with an empty secret returns a code for
every hash algorithm, time, nonzero step and digit count up to 63 (from
64 digits on every secret fails on the wrapped zero modulus, see
`pow10_u64_eq_zero_iff`, so the bound is forced and not specific to the
empty secret). -/
theorem empty_secret_accepted (H : HashAlg) (step digits time : Nat) (hstep : step ≠ 0)
    (hdig : digits ≤ 63) :
    ∃ s : String, totp_custom H step digits [] time = some s :=
  ⟨_, totp_custom_eq_wrapped H step digits [] time hstep
    (fun h0 => absurd ((pow10_u64_eq_zero_iff digits).mp h0) (by omega))⟩

/-- C1: the RFC 6238 Appendix B known-answer vectors; `totp` (step 30,
8 digits) on the 20-byte SHA-1 secret, the 32-byte SHA-256 secret and the
64-byte SHA-512 secret returns exactly the published codes. -/
theorem rfc6238_appendix_b_vectors :
    totp Sha1 secret20 59 = some "94287082" ∧
    totp Sha1 secret20 1111111109 = some "07081804" ∧
    totp Sha1 secret20 1111111111 = some "14050471" ∧
    totp Sha1 secret20 1234567890 = some "89005924" ∧
    totp Sha1 secret20 2000000000 = some "69279037" ∧
    totp Sha1 secret20 20000000000 = some "65353130" ∧
    totp Sha256 secret32 59 = some "46119246" ∧
    totp Sha256 secret32 20000000000 = some "77737706" ∧
    totp Sha512 secret64 59 = some "90693936" ∧
    totp Sha512 secret64 1234567890 = some "93441116" :=
  ⟨by decide, by decide, by decide, by decide, by decide, by decide, by decide, by decide,
   by decide, by decide⟩

/-- C6 counterexample: at d1 = 0, d2 = 1 the claimed suffix relation
fails: the 0-digit code is "0" (one character), not the empty suffix of
the 1-digit code "2". -/
theorem zero_digit_suffix_fails :
    totp_custom Sha1 30 0 secret20 59 = some "0" ∧
    totp_custom Sha1 30 1 secret20 59 = some "2" ∧
    ("0" : String).data ≠ (("2" : String).data.drop (1 - 0)) :=
  ⟨by decide, by decide, by decide⟩

/-- C7 counterexample: with the empty secret, `totp_custom` does not fail;
it returns the code "30812658" at time 59 with SHA-1, step 30, 8 digits. -/
theorem empty_secret_returns_code :
    totp_custom Sha1 30 8 [] 59 = some "30812658" := by decide

/-- Witness for C3 at SHA-1, step 30, 8 digits, the RFC secret, time 59. -/
theorem totp_custom_output_shape_witness :
    ∃ s : String, totp_custom Sha1 30 8 secret20 59 = some s ∧
      s.length = 8 ∧ (∀ c ∈ s.data, isAsciiDigit c) ∧
      charsVal s.data = dynamic_binary (hmac Sha1 (hmac_key_block Sha1 secret20)
        (to_bytes (59 / 30))) % 10 ^ 8 :=
  totp_custom_output_shape Sha1 30 8 secret20 59 (by decide) (by decide) (by decide)

/-- Witness for C4 at n = 1, i = 7. -/
theorem to_bytes_big_endian_witness :
    (to_bytes 1).getD 7 0 = (1 >>> (8 * (7 - 7))) &&& 0xFF ∧
    to_bytes (59 / 30) = [0, 0, 0, 0, 0, 0, 0, 1] ∧
    to_bytes (1111111109 / 30) = [0, 0, 0, 0, 0x02, 0x35, 0x23, 0xEC] :=
  to_bytes_big_endian 1 7 (by decide) (by decide)

/-- Witness for C5: timestamps 31 and 59 share the window 1 at step 30. -/
theorem totp_custom_constant_within_window_witness :
    totp_custom Sha1 30 8 secret20 31 = totp_custom Sha1 30 8 secret20 59 :=
  totp_custom_constant_within_window Sha1 30 8 secret20 31 59 (by decide) (by decide)
    (by decide)

/-- Witness for C6 (amended) at d1 = 6, d2 = 10. -/
theorem digit_code_suffix_witness :
    ∃ s1 s2 : String, totp_custom Sha1 30 6 secret20 59 = some s1 ∧
      totp_custom Sha1 30 10 secret20 59 = some s2 ∧
      s1.data = s2.data.drop (10 - 6) :=
  digit_code_suffix Sha1 30 secret20 59 6 10 (by decide) (by decide) (by decide) (by decide)

/-- Witness for C7 (amended) at SHA-1, step 30, 8 digits, time 59. -/
theorem empty_secret_accepted_witness :
    ∃ s : String, totp_custom Sha1 30 8 [] 59 = some s :=
  empty_secret_accepted Sha1 30 8 59 (by decide) (by decide)

/-- Witness for C9 at the all-zero 20-byte digest. -/
theorem dynamic_truncation_bounds_witness :
    dynamic_offset (List.replicate 20 0) + 3 < (List.replicate 20 0).length ∧
    dynamic_binary (List.replicate 20 0) < 2 ^ 31 :=
  dynamic_truncation_bounds (List.replicate 20 0) (by decide) (by decide)

/-- Witness for C10 at SHA-1, step 30, the RFC secret, time 59. -/
theorem totp_custom_zero_digits_witness :
    totp_custom Sha1 30 0 secret20 59 = some "0" ∧ ("0" : String).length = 1 :=
  totp_custom_zero_digits Sha1 30 secret20 59 (by decide)

end TotpLite
